import Mathlib

/-!
Verification development for the Vinuchi blog-writer core:
the persistent preference/content store (`persistent_memory.py`) and the
generation / validation / surgical-edit logic (`generate_blog.py`).

Modelling conventions (shallow embedding):
* Python strings are `List Char`; case mappings use Lean's ASCII
  `Char.toLower`/`Char.toUpper`, matching CPython on ASCII text.
* Timestamps (`datetime.now().isoformat()`) are threaded as an explicit
  `now : List Char` parameter.
* The MD5 digest in `_hash_content` is modelled as the normalized text
  itself (the digest is injective on the corpus in practice; every property
  proved depends only on digest equality being normalized-text equality).
* Python floats (`difflib` ratios, the 0.05 / 0.15 thresholds) are modelled
  as exact rationals; no claim in scope sits on a float-rounding boundary.
* External effects (disk persistence, the Anthropic client, the usage
  limiter) are modelled as explicit state / oracle parameters.
-/

namespace Vinuchi

/-- Python whitespace for `\s`, `str.split()` and `str.strip()` (ASCII set:
space, tab, newline, carriage return, form feed, vertical tab). -/
def pyWs (c : Char) : Bool :=
  c = ' ' || c = '\t' || c = '\n' || c = Char.ofNat 13 || c = Char.ofNat 12 || c = Char.ofNat 11

/-- Convert a Lean string literal to the `List Char` representation used
throughout this development. -/
def strL (s : String) : List Char :=
  s.toList

/-- The apostrophe character (used by several f-string message templates). -/
def squo : Char :=
  Char.ofNat 39

/-- The double-quote character (used in the instruction patterns). -/
def dquo : Char :=
  Char.ofNat 34

/-- Python `str.lower()` (ASCII). -/
def lowerL (s : List Char) : List Char :=
  s.map Char.toLower

/-- Python `str.upper()` (ASCII). -/
def upperL (s : List Char) : List Char :=
  s.map Char.toUpper

/-- Python `str.strip()`: drop leading and trailing whitespace. -/
def stripL (s : List Char) : List Char :=
  ((s.dropWhile pyWs).reverse.dropWhile pyWs).reverse

/-- Helper for `splitWsL`: accumulate the current word (reversed) while
scanning. -/
def splitWsGo : List Char → List Char → List (List Char)
  | [], acc => if acc.isEmpty then [] else [acc.reverse]
  | c :: r, acc =>
    if pyWs c then
      if acc.isEmpty then splitWsGo r [] else acc.reverse :: splitWsGo r []
    else splitWsGo r (c :: acc)

/-- Python `str.split()` with no separator: split on whitespace runs,
dropping empty fields. -/
def splitWsL (s : List Char) : List (List Char) :=
  splitWsGo s []

/-- Python `len(text.split())`, the word count used by the review step and
by `save_generated_blog`. -/
def wordCountL (s : List Char) : Nat :=
  (splitWsL s).length

/-- Helper for `splitOnNl`. -/
def splitOnNlGo : List Char → List Char → List (List Char)
  | [], acc => [acc.reverse]
  | c :: r, acc =>
    if c = '\n' then acc.reverse :: splitOnNlGo r [] else splitOnNlGo r (c :: acc)

/-- Python `str.split('\n')`. -/
def splitOnNl (s : List Char) : List (List Char) :=
  splitOnNlGo s []

/-- Python `'\n'.join(parts)`. -/
def joinNl : List (List Char) → List Char
  | [] => []
  | [x] => x
  | x :: y :: r => x ++ '\n' :: joinNl (y :: r)

/-- Python `' '.join(parts)`. -/
def joinSp : List (List Char) → List Char
  | [] => []
  | [x] => x
  | x :: y :: r => x ++ ' ' :: joinSp (y :: r)

/-- Exact (case-sensitive) prefix test. -/
def startsWithEx : List Char → List Char → Bool
  | [], _ => true
  | _ :: _, [] => false
  | o :: os, c :: cs => o = c && startsWithEx os cs

/-- Python `needle in haystack`: exact contiguous substring test. -/
def containsEx (needle : List Char) : List Char → Bool
  | [] => startsWithEx needle []
  | c :: r => startsWithEx needle (c :: r) || containsEx needle r

/-- Helper for `replaceEx`: a positive `skip` count drops characters already
consumed by a match. -/
def replaceExGo (old new : List Char) : Nat → List Char → List Char
  | _, [] => []
  | sk + 1, _ :: cs => replaceExGo old new sk cs
  | 0, c :: cs =>
    if startsWithEx old (c :: cs) = true then
      new ++ replaceExGo old new (old.length - 1) cs
    else
      c :: replaceExGo old new 0 cs

/-- Python `str.replace(old, new)` (all non-overlapping occurrences, left to
right).  The `old = []` case is unreachable in the modelled code paths. -/
def replaceEx (old new : List Char) (s : List Char) : List Char :=
  replaceExGo old new 0 s

/-- Case-insensitive character comparison, as performed by `re.IGNORECASE`
on ASCII text. -/
def charEqCI (a b : Char) : Bool :=
  a.toLower = b.toLower

/-- Case-insensitive prefix test (the pattern is the first argument). -/
def startsWithCI : List Char → List Char → Bool
  | [], _ => true
  | _ :: _, [] => false
  | o :: os, c :: cs => charEqCI o c && startsWithCI os cs

/-- Case-insensitive contiguous substring test (`re.search` with
`re.IGNORECASE` on an escaped literal succeeds somewhere). -/
def containsCI (needle : List Char) : List Char → Bool
  | [] => startsWithCI needle []
  | c :: r => startsWithCI needle (c :: r) || containsCI needle r

/-- Python `str.isupper()`: at least one cased character and no lowercase
character (ASCII). -/
def pyIsUpperL (s : List Char) : Bool :=
  s.any (fun c => c.isUpper || c.isLower) && s.all (fun c => !c.isLower)

/-- Helper for `pyIsTitleL`: `prevCased` tracks whether the previous
character was cased, `anyCased` whether a cased character was seen. -/
def pyIsTitleGo : Bool → Bool → List Char → Bool
  | _, anyCased, [] => anyCased
  | prevCased, anyCased, c :: r =>
    if c.isUpper then
      if prevCased then false else pyIsTitleGo true true r
    else if c.isLower then
      if prevCased then pyIsTitleGo true true r else false
    else pyIsTitleGo false anyCased r

/-- Python `str.istitle()` (ASCII). -/
def pyIsTitleL (s : List Char) : Bool :=
  pyIsTitleGo false false s

/-- Helper for `pyTitleL`. -/
def pyTitleGo : Bool → List Char → List Char
  | _, [] => []
  | prevCased, c :: r =>
    if c.isUpper || c.isLower then
      (if prevCased then c.toLower else c.toUpper) :: pyTitleGo true r
    else c :: pyTitleGo false r

/-- Python `str.title()` (ASCII): the first character of each cased run is
uppercased, the rest lowercased. -/
def pyTitleL (s : List Char) : List Char :=
  pyTitleGo false s

/-- The `case_preserving_replace` callback of `_try_simple_replacement`:
the replacement word takes the case shape of the matched occurrence. -/
def caseApply (matched new : List Char) : List Char :=
  if pyIsUpperL matched then upperL new
  else if pyIsTitleL matched then pyTitleL new
  else lowerL new

/-- The `re.sub(re.escape(old), case_preserving_replace, s, flags=re.IGNORECASE)`
call of `_try_simple_replacement`: left-to-right, non-overlapping,
case-insensitive occurrences of `old` are replaced case-preservingly by
`new`.  The `old = []` branch is unreachable (`old` comes from a `\w+`
group).  A positive `skip` count in the helper drops the characters a
match consumed. -/
def replaceCIGo (old new : List Char) : Nat → List Char → List Char
  | _, [] => []
  | sk + 1, _ :: cs => replaceCIGo old new sk cs
  | 0, c :: cs =>
    if startsWithCI old (c :: cs) = true then
      caseApply (List.take old.length (c :: cs)) new ++
        replaceCIGo old new (old.length - 1) cs
    else
      c :: replaceCIGo old new 0 cs

/-- The full case-preserving case-insensitive replacement. -/
def replaceCI (old new : List Char) (s : List Char) : List Char :=
  replaceCIGo old new 0 s

/-!
Embedding of CPython `difflib.SequenceMatcher(None, a, b).ratio()`, used by
`_calculate_change_ratio` and referenced by the surgical-edit guard.
`isjunk` is `None`, so the junk set is empty; `autojunk` keeps its default
and removes "popular" elements from the index when `len(b) >= 200`.
-/

/-- The `b2j` index of `SequenceMatcher.__chain_b`: ascending positions of a
character in `b`, emptied for popular characters when `len(b) >= 200`
(autojunk). -/
def b2jIdx (b : List Char) (c : Char) : List Nat :=
  let idxs := (b.enum.filter (fun p => p.2 = c)).map Prod.fst
  if 200 ≤ b.length ∧ b.length / 100 + 1 < idxs.length then [] else idxs

/-- The running best match of `find_longest_match`. -/
structure FlmSt where
  besti : Nat
  bestj : Nat
  bestsize : Nat
deriving DecidableEq

/-- Inner `j` loop of `find_longest_match` for one row `i`: `j2old` is the
previous row's run-length map, the new map and best triple are threaded.
(`j = 0` looks up `j2len.get(-1, 0) = 0`.) -/
def flmInner (i : Nat) (j2old : Nat → Nat) :
    List Nat → (Nat → Nat) → FlmSt → ((Nat → Nat) × FlmSt)
  | [], j2new, best => (j2new, best)
  | j :: js, j2new, best =>
    let k := (if j = 0 then 0 else j2old (j - 1)) + 1
    let j2new' := fun x => if x = j then k else j2new x
    let best' := if best.bestsize < k then FlmSt.mk (i + 1 - k) (j + 1 - k) k else best
    flmInner i j2old js j2new' best'

/-- Row loop of `find_longest_match` over `i` in `range(alo, ahi)`.  The
`continue` on `j < blo` and the `break` on `j >= bhi` filter the ascending
index list to the window. -/
def flmRows (a b : List Char) (blo bhi : Nat) :
    List Nat → (Nat → Nat) → FlmSt → FlmSt
  | [], _, best => best
  | i :: is, j2len, best =>
    let js := (b2jIdx b (a.getD i 'A')).filter (fun j => blo ≤ j ∧ j < bhi)
    let p := flmInner i j2len js (fun _ => 0) best
    flmRows a b blo bhi is p.1 p.2

/-- Backward non-junk extension loop of `find_longest_match` (the junk set
is empty, so the junk-extension loops never fire). -/
def extBack (a b : List Char) (alo blo : Nat) : Nat → FlmSt → FlmSt
  | 0, f => f
  | fuel + 1, f =>
    if alo < f.besti ∧ blo < f.bestj ∧ a.getD (f.besti - 1) 'A' = b.getD (f.bestj - 1) 'A'
    then extBack a b alo blo fuel (FlmSt.mk (f.besti - 1) (f.bestj - 1) (f.bestsize + 1))
    else f

/-- Forward non-junk extension loop of `find_longest_match`. -/
def extFwd (a b : List Char) (ahi bhi : Nat) : Nat → FlmSt → FlmSt
  | 0, f => f
  | fuel + 1, f =>
    if f.besti + f.bestsize < ahi ∧ f.bestj + f.bestsize < bhi ∧
       a.getD (f.besti + f.bestsize) 'A' = b.getD (f.bestj + f.bestsize) 'A'
    then extFwd a b ahi bhi fuel (FlmSt.mk f.besti f.bestj (f.bestsize + 1))
    else f

/-- `SequenceMatcher.find_longest_match(alo, ahi, blo, bhi)`. -/
def flm (a b : List Char) (alo ahi blo bhi : Nat) : FlmSt :=
  let base := flmRows a b blo bhi (List.range' alo (ahi - alo)) (fun _ => 0)
    (FlmSt.mk alo blo 0)
  let f1 := extBack a b alo blo base.besti base
  extFwd a b ahi bhi ahi f1

/-- Total size of the matching blocks found by
`SequenceMatcher.get_matching_blocks` (its sentinel block has size 0): the
recursion splits the window around each longest match.  The fuel bounds the
recursion depth; each recursive window is strictly smaller, so
`len(a) + len(b) + 1` fuel is never exhausted. -/
def matchSumGo (a b : List Char) : Nat → Nat → Nat → Nat → Nat → Nat
  | 0, _, _, _, _ => 0
  | fuel + 1, alo, ahi, blo, bhi =>
    let f := flm a b alo ahi blo bhi
    if f.bestsize = 0 then 0
    else
      f.bestsize
      + (if alo < f.besti ∧ blo < f.bestj then matchSumGo a b fuel alo f.besti blo f.bestj
         else 0)
      + (if f.besti + f.bestsize < ahi ∧ f.bestj + f.bestsize < bhi then
           matchSumGo a b fuel (f.besti + f.bestsize) ahi (f.bestj + f.bestsize) bhi
         else 0)

/-- Sum of matched block sizes over the whole pair. -/
def matchSum (a b : List Char) : Nat :=
  matchSumGo a b (a.length + b.length + 1) 0 a.length 0 b.length

/-- `SequenceMatcher.ratio()`: `2 * matches / (len(a) + len(b))`, and `1.0`
when both sequences are empty (`difflib._calculate_ratio`). -/
def smRatio (a b : List Char) : ℚ :=
  let t := a.length + b.length
  if t = 0 then 1 else (2 * (matchSum a b) : ℚ) / (t : ℚ)

/-- `VinuchiBlogGenerator._calculate_change_ratio`: fraction of the text that
changed, `1 - SequenceMatcher(None, original, modified).ratio()`. -/
def calculate_change_ratio (original modified : List Char) : ℚ :=
  1 - smRatio original modified

/-!
Embedding of `persistent_memory.py` (`PersistentMemory`).  Disk persistence
(`_save_all`) rewrites the whole in-memory state, so the in-memory state is
the state; `datetime.now().isoformat()` is an explicit `now` parameter.
-/

/-- One entry of a preference list (`banned_words`, `required_elements`,
`style_notes`, `formatting_rules`).  The Python dicts use a type-specific
key for the value (`word`, `element`, `note`, `rule`); here it is `value`.
`removed_at` is `none` until the key is first written by a removal. -/
structure PrefEntry where
  value : List Char
  reason : List Char
  added_at : List Char
  active : Bool
  removed_at : Option (List Char)
deriving DecidableEq

/-- One record of `generated_blogs.json`. -/
structure BlogEntry where
  id : List Char
  title : List Char
  content : List Char
  topic_requested : List Char
  content_hash : List Char
  word_count : Nat
  status : List Char
  created_at : List Char
  updated_at : List Char
deriving DecidableEq

/-- One record of `content_hashes.json`. -/
structure HashEntry where
  hash : List Char
  blog_id : List Char
  title : List Char
deriving DecidableEq

/-- One record of `learning_log.json` (`_log_learning`). -/
structure LogEntry where
  event_type : List Char
  description : List Char
  timestamp : List Char
deriving DecidableEq

/-- The in-memory state of `PersistentMemory` (the preference categories the
modelled operations touch, plus the blog store, hash index and learning
log). -/
structure Memory where
  banned_words : List PrefEntry
  required_elements : List PrefEntry
  style_notes : List PrefEntry
  formatting_rules : List PrefEntry
  generated_blogs : List BlogEntry
  content_hashes : List HashEntry
  learning_log : List LogEntry
deriving DecidableEq

/-- The empty store (all backing files absent). -/
def Memory.empty : Memory :=
  ⟨[], [], [], [], [], [], []⟩

/-- `word.lower().strip()`, the normalization used by
`add_banned_word` / `remove_banned_word`. -/
def normWord (w : List Char) : List Char :=
  stripL (lowerL w)

/-- `PersistentMemory._log_learning`. -/
def log_learning (event_type description now : List Char) (m : Memory) : Memory :=
  { m with learning_log := m.learning_log ++ [⟨event_type, description, now⟩] }

/-- `PersistentMemory.add_banned_word`.  The existence check compares the
normalized word against every stored entry's `word`, with no filter on
`active`; when a match exists the method returns before appending or
logging. -/
def add_banned_word (w reason now : List Char) (m : Memory) : Memory :=
  let word_lower := normWord w
  if (m.banned_words.filter (fun e => e.value = word_lower)).isEmpty = false then m
  else
    let m' := { m with banned_words :=
      m.banned_words ++ [⟨word_lower, reason, now, true, none⟩] }
    log_learning (strL "banned_word_added")
      (strL "Never use: " ++ [squo] ++ w ++ [squo] ++ strL " - " ++ reason) now m'

/-- `PersistentMemory.remove_banned_word`: every entry whose `word` equals
the normalized argument is deactivated in place and stamped with
`removed_at`; nothing is deleted. -/
def remove_banned_word (w now : List Char) (m : Memory) : Memory :=
  let word_lower := normWord w
  let m' := { m with banned_words := m.banned_words.map (fun e =>
    if e.value = word_lower then { e with active := false, removed_at := some now } else e) }
  log_learning (strL "banned_word_removed")
    (strL "Unbanned: " ++ [squo] ++ w ++ [squo]) now m'

/-- `PersistentMemory.get_banned_words`: values of the active entries, in
insertion order. -/
def get_banned_words (m : Memory) : List (List Char) :=
  (m.banned_words.filter (fun e => e.active)).map (fun e => e.value)

/-- `PersistentMemory.add_required_element`: appends unconditionally — the
source has no duplicate check for this category. -/
def add_required_element (e reason now : List Char) (m : Memory) : Memory :=
  let m' := { m with required_elements :=
    m.required_elements ++ [⟨e, reason, now, true, none⟩] }
  log_learning (strL "required_element_added")
    (strL "Always include: " ++ [squo] ++ e ++ [squo]) now m'

/-- `PersistentMemory.get_required_elements`. -/
def get_required_elements (m : Memory) : List (List Char) :=
  (m.required_elements.filter (fun e => e.active)).map (fun e => e.value)

/-- `PersistentMemory.get_formatting_rules`. -/
def get_formatting_rules (m : Memory) : List (List Char) :=
  (m.formatting_rules.filter (fun e => e.active)).map (fun e => e.value)

/-- `PersistentMemory._hash_content`: the body is lowercased, stripped and
whitespace-normalized, then digested with MD5.  The digest is modelled as
the normalized text itself (see the header note). -/
def hash_content (content : List Char) : List Char :=
  joinSp (splitWsL (stripL (lowerL content)))

/-- `PersistentMemory.save_generated_blog`: appends the blog record and its
hash-index entry, logs, and returns the new id. -/
def save_generated_blog (title content topic status now : List Char) (m : Memory) :
    (List Char × Memory) :=
  let blog_id := strL "blog_" ++ now ++ strL "_" ++ strL (toString m.generated_blogs.length)
  let h := hash_content content
  let entry : BlogEntry :=
    ⟨blog_id, title, content, topic, h, wordCountL content, status, now, now⟩
  let m' := { m with
    generated_blogs := m.generated_blogs ++ [entry],
    content_hashes := m.content_hashes ++ [⟨h, blog_id, title⟩] }
  (blog_id, log_learning (strL "blog_generated")
    (strL "Created: " ++ [squo] ++ title ++ [squo]) now m')

/-- Classification returned by `is_duplicate`. -/
inductive DupType where
  | exact
  | similar
deriving DecidableEq

/-- The dict returned by `is_duplicate` (the `overlap` key is only present
for `similar` results). -/
structure DupResult where
  dtype : DupType
  blog_id : List Char
  title : List Char
  overlap : Option ℚ
deriving DecidableEq

/-- Lowercased word set of a body, as `set(content.lower().split())`;
`dedup` keeps one occurrence per word. -/
def wordSet (content : List Char) : List (List Char) :=
  (splitWsL (lowerL content)).dedup

/-- The overlap ratio of `is_duplicate`:
`len(A & B) / max(len(A), len(B))` on the lowercased word sets.  (Python
raises `ZeroDivisionError` when both sets are empty; in `ℚ` the quotient is
0.  Both texts being whitespace-only cannot reach the fuzzy loop with a
saved counterpart, since the exact-hash check fires first.) -/
def overlapQ (a b : List Char) : ℚ :=
  let na := wordSet a
  let nb := wordSet b
  ((na.filter (fun w => w ∈ nb)).length : ℚ) / (max na.length nb.length : ℚ)

/-- Exact-hash loop of `is_duplicate` (`for entry in self.content_hashes`). -/
def dupHashLoop (h : List Char) : List HashEntry → Option DupResult
  | [] => none
  | e :: es => if e.hash = h then some ⟨DupType.exact, e.blog_id, e.title, none⟩
               else dupHashLoop h es

/-- Fuzzy loop of `is_duplicate` (`for blog in self.generated_blogs`). -/
def dupFuzzyLoop (content : List Char) (threshold : ℚ) : List BlogEntry → Option DupResult
  | [] => none
  | b :: bs =>
    let ov := overlapQ content b.content
    if threshold < ov then some ⟨DupType.similar, b.id, b.title, some ov⟩
    else dupFuzzyLoop content threshold bs

/-- `PersistentMemory.is_duplicate(content, threshold=0.9)`. -/
def is_duplicate (content : List Char) (threshold : ℚ) (m : Memory) : Option DupResult :=
  match dupHashLoop (hash_content content) m.content_hashes with
  | some r => some r
  | none => dupFuzzyLoop content threshold m.generated_blogs

/-- The result dict of `validate_content` (and the merged result built by
`generate`). -/
structure ValidationResult where
  valid : Bool
  issues : List (List Char)
  warnings : List (List Char)
deriving DecidableEq

/-- The f-string `f"Contains banned word: '{word}'"`. -/
def bannedIssueMsg (w : List Char) : List Char :=
  strL "Contains banned word: " ++ [squo] ++ w ++ [squo]

/-- The f-string `f"Missing required element: '{element}'"`. -/
def missingElementMsg (e : List Char) : List Char :=
  strL "Missing required element: " ++ [squo] ++ e ++ [squo]

/-- The literal dash-violation issue text. -/
def dashIssueMsg : List Char :=
  strL "Contains dashes (formatting rule violation)"

/-- The literal bullet-violation issue text. -/
def bulletIssueMsg : List Char :=
  strL "Contains bullet points (formatting rule violation)"

/-- The f-string `f"Content too similar to existing blog: '{title}'"`. -/
def dupIssueMsg (t : List Char) : List Char :=
  strL "Content too similar to existing blog: " ++ [squo] ++ t ++ [squo]

/-- Issues contributed by one formatting rule: the dash check and the bullet
check are two independent `if`s, each able to append one issue. -/
def formattingIssuesFor (content rule : List Char) : List (List Char) :=
  let rule_lower := lowerL rule
  (if (containsEx (strL "no dashes") rule_lower || containsEx (strL "never use dash") rule_lower)
      && (containsEx (strL " - ") content || containsEx (strL " – ") content)
   then [dashIssueMsg] else [])
  ++
  (if containsEx (strL "no bullet") rule_lower
      && (containsEx (strL "•") content || startsWithEx ['-'] (stripL content))
   then [bulletIssueMsg] else [])

/-- `PersistentMemory.validate_content`: banned-word issues (raw substring
match against the lowercased body), required-element warnings, formatting
issues, then a duplicate check at the default 0.9 threshold. -/
def validate_content (content : List Char) (m : Memory) : ValidationResult :=
  let content_lower := lowerL content
  let bannedIssues := ((get_banned_words m).filter
    (fun w => containsEx w content_lower)).map bannedIssueMsg
  let warnings := ((get_required_elements m).filter
    (fun e => !containsEx (lowerL e) content_lower)).map missingElementMsg
  let fmtIssues := (get_formatting_rules m).flatMap (formattingIssuesFor content)
  let dupIssues := match is_duplicate content (9 / 10) m with
    | some d => [dupIssueMsg d.title]
    | none => []
  let issues := bannedIssues ++ fmtIssues ++ dupIssues
  ⟨issues.isEmpty, issues, warnings⟩

/-!
Embedding of `generate_blog.py`: the review step, the retry loop of
`generate`, and the usage accounting.  The Anthropic call is an oracle
`Nat → Option (List Char)` from attempt number to raw response (`none`
models a raised exception, which `generate` catches and turns into a `None`
return).  Prompt construction only influences the response, so it is
absorbed by the oracle; the usage limiter's `check_limit` verdict is the
`allowed` flag, and `record_usage` calls are counted.
-/

/-- `MIN_WORDS` (hard lower word limit). -/
def MIN_WORDS : Nat := 550

/-- `MAX_WORDS` (hard upper word limit). -/
def MAX_WORDS : Nat := 600

/-- Result dict of `_review_blog`. -/
structure ReviewResult where
  passed : Bool
  word_count : Nat
  issues : List (List Char)
  warnings : List (List Char)
deriving DecidableEq

/-- The f-string `f"WORD COUNT TOO LOW: {word_count} words (minimum {MIN_WORDS} required)"`. -/
def tooLowMsg (wc : Nat) : List Char :=
  strL "WORD COUNT TOO LOW: " ++ strL (toString wc) ++ strL " words (minimum 550 required)"

/-- The f-string `f"WORD COUNT EXCEEDED: {word_count} words (max {MAX_WORDS})"`. -/
def exceededMsg (wc : Nat) : List Char :=
  strL "WORD COUNT EXCEEDED: " ++ strL (toString wc) ++ strL " words (max 600)"

/-- The f-string `f"Word count slightly high: {word_count} words (target: 550-590)"`. -/
def slightlyHighMsg (wc : Nat) : List Char :=
  strL "Word count slightly high: " ++ strL (toString wc) ++ strL " words (target: 550-590)"

/-- `VinuchiBlogGenerator._review_blog` (the title argument is unused by the
source after the similarity checks were removed). -/
def review_blog (content : List Char) : ReviewResult :=
  let wc := wordCountL content
  let issues :=
    if wc < MIN_WORDS then [tooLowMsg wc]
    else if MAX_WORDS < wc then [exceededMsg wc]
    else []
  let warnings :=
    if wc < MIN_WORDS then []
    else if MAX_WORDS < wc then []
    else if 590 < wc then [slightlyHighMsg wc]
    else []
  ⟨issues.isEmpty, wc, issues, warnings⟩

/-- Title/content split applied to a raw response in `generate`:
`lines = generated.strip().split('\n')`,
`title = lines[0].replace('#', '').strip()`,
`content = '\n'.join(lines[1:]).strip()`. -/
def parseDraft (generated : List Char) : (List Char × List Char) :=
  let lines := splitOnNl (stripL generated)
  let title := stripL (replaceEx ['#'] [] (lines.headD []))
  let content := stripL (joinNl lines.tail)
  (title, content)

/-- Outcome of the generation loop of `generate`. -/
inductive LoopOut where
  | apiError (calls : Nat)
  | done (raw title content : List Char) (review : ReviewResult) (attempt : Nat)
deriving DecidableEq

/-- The `for attempt in range(1, max_attempts + 1)` loop of `generate`:
one oracle call per attempt; a failed review with attempts remaining
retries, otherwise the loop breaks with the current draft.  `remaining` is
the number of attempts left after the current one. -/
def genLoop (oracle : Nat → Option (List Char)) (attempt : Nat) : Nat → LoopOut
  | 0 =>
    match oracle attempt with
    | none => LoopOut.apiError attempt
    | some raw =>
      LoopOut.done raw (parseDraft raw).1 (parseDraft raw).2
        (review_blog (parseDraft raw).2) attempt
  | r + 1 =>
    match oracle attempt with
    | none => LoopOut.apiError attempt
    | some raw =>
      if (review_blog (parseDraft raw).2).passed then
        LoopOut.done raw (parseDraft raw).1 (parseDraft raw).2
          (review_blog (parseDraft raw).2) attempt
      else genLoop oracle (attempt + 1) r

/-- The result dict returned by `generate` on completion. -/
structure GenResult where
  title : List Char
  content : List Char
  full_text : List Char
  topic_requested : List Char
  word_count : Nat
  validation : ValidationResult
  attempts : Nat
  blog_id : Option (List Char)
deriving DecidableEq

/-- What a call of `generate` does: short-circuits on the usage limit,
returns `None` when the provider raises, or returns a result and the
(possibly) updated store. -/
inductive GenOutcome where
  | limitExceeded
  | returnedNone
  | ok (res : GenResult) (m : Memory)
deriving DecidableEq

/-- A whole `generate` call: its outcome plus the number of provider calls
made and of `record_usage` calls performed. -/
structure GenRun where
  outcome : GenOutcome
  llm_calls : Nat
  usage_recorded : Nat
deriving DecidableEq

/-- `VinuchiBlogGenerator.generate(topic, save, max_attempts)`.
`allowed` is `check_limit()`'s verdict; raising `UsageLimitExceeded`
happens before any provider call.  After the loop the draft is validated
against the learned rules, review issues are merged in, the item is saved
only when `save` and the merged validity hold, and `record_usage` runs
regardless of validity — but not when the provider raised (`return None`
skips it).  `max_attempts = 0` would crash the source with an unbound
local; theorems about `generate` assume `1 ≤ max_attempts`. -/
def generate (allowed : Bool) (oracle : Nat → Option (List Char))
    (topic : List Char) (save : Bool) (max_attempts : Nat) (now : List Char)
    (m : Memory) : GenRun :=
  if allowed = false then ⟨GenOutcome.limitExceeded, 0, 0⟩
  else
    match genLoop oracle 1 (max_attempts - 1) with
    | LoopOut.apiError calls => ⟨GenOutcome.returnedNone, calls, 0⟩
    | LoopOut.done raw title content review attempt =>
      let v := validate_content raw m
      let validation : ValidationResult :=
        ⟨v.valid && review.passed, v.issues ++ review.issues, v.warnings ++ review.warnings⟩
      let res : GenResult :=
        ⟨title, content, raw, topic, review.word_count, validation, attempt, none⟩
      if save && validation.valid then
        let p := save_generated_blog title content topic (strL "draft") now m
        ⟨GenOutcome.ok { res with blog_id := some p.1 } p.2, attempt, 1⟩
      else
        ⟨GenOutcome.ok res m, attempt, 1⟩

/-!
A small backtracking regex engine covering exactly the constructs of the
nine instruction patterns of `_try_simple_replacement`: literals, one-char
classes (`\w`, `\s`, quote, `[-=]`, `[:\s]`), greedy `*`/`+`/`?`, the two
capture groups, and `^`/`$` anchors.  Search and backtracking order follow
CPython `re.search`: leftmost starting position, greedy quantifiers tried
longest-first.
-/

/-- Regex abstract syntax. -/
inductive RE where
  | eps
  | lit (c : Char)
  | cls (p : Char → Bool)
  | seq (a b : RE)
  | alt (a b : RE)
  | star (r : RE)
  | grp (slot : Nat) (r : RE)

/-- The two capture slots. -/
structure Caps where
  g1 : List Char
  g2 : List Char
deriving DecidableEq

/-- Structural size of a pattern, used to provision matcher fuel. -/
def reSize : RE → Nat
  | RE.eps => 1
  | RE.lit _ => 1
  | RE.cls _ => 1
  | RE.seq a b => reSize a + reSize b + 1
  | RE.alt a b => reSize a + reSize b + 1
  | RE.star r => reSize r + 1
  | RE.grp _ r => reSize r + 1

/-- CPS backtracking matcher.  The fuel bounds the nesting depth of the
(CPS) recursion; every matcher call along a path either steps into a
pattern subterm or re-enters a `star` after consuming input, so
`(reSize re + 2) * (input length + 2)` fuel (provisioned by `searchPat`)
is never exhausted. -/
def mrun : Nat → RE → List Char → Caps → (List Char → Caps → Option Caps) → Option Caps
  | 0, _, _, _, _ => none
  | fuel + 1, re, s, caps, k =>
    match re with
    | RE.eps => k s caps
    | RE.lit c =>
      match s with
      | [] => none
      | x :: r => if x = c then k r caps else none
    | RE.cls p =>
      match s with
      | [] => none
      | x :: r => if p x then k r caps else none
    | RE.seq a b =>
      mrun fuel a s caps (fun s' c' => mrun fuel b s' c' k)
    | RE.alt a b =>
      match mrun fuel a s caps k with
      | some res => some res
      | none => mrun fuel b s caps k
    | RE.star r =>
      (match mrun fuel r s caps (fun s' c' =>
           if s'.length < s.length then mrun fuel (RE.star r) s' c' k else none) with
       | some res => some res
       | none => k s caps)
    | RE.grp slot r =>
      mrun fuel r s caps (fun s' c' =>
        let g := s.take (s.length - s'.length)
        k s' (if slot = 1 then { c' with g1 := g } else { c' with g2 := g }))

/-- One instruction pattern: its body, anchoring, and whether the captured
groups are swapped (`use X instead of Y` binds `old` to group 2). -/
structure PatSpec where
  re : RE
  anchorStart : Bool
  anchorEnd : Bool
  swap : Bool

/-- Python `\w` (ASCII). -/
def wordChar (c : Char) : Bool :=
  c.isAlphanum || c = '_'

/-- The `['\"]` quote class. -/
def quoteChar (c : Char) : Bool :=
  c = squo || c = dquo

/-- Sequence of several regexes. -/
def rcat : List RE → RE
  | [] => RE.eps
  | [r] => r
  | r :: s :: t => RE.seq r (rcat (s :: t))

/-- Literal word. -/
def rlits (s : String) : RE :=
  rcat (s.toList.map RE.lit)

/-- Greedy `+`. -/
def rplus (r : RE) : RE :=
  RE.seq r (RE.star r)

/-- Greedy `?`. -/
def ropt (r : RE) : RE :=
  RE.alt r RE.eps

/-- `['\"]?`. -/
def rquo : RE :=
  ropt (RE.cls quoteChar)

/-- `\s+`. -/
def rsp : RE :=
  rplus (RE.cls pyWs)

/-- `\s*`. -/
def rspStar : RE :=
  RE.star (RE.cls pyWs)

/-- `['\"]?(\w+)['\"]?` capturing into the given slot. -/
def rword (slot : Nat) : RE :=
  rcat [rquo, RE.grp slot (rplus (RE.cls wordChar)), rquo]

/-- Attempt a pattern at one position (`$` requires the rest to be empty;
the searched instruction is stripped, so a trailing newline cannot occur). -/
def tryAt (p : PatSpec) (fuel : Nat) (s : List Char) : Option Caps :=
  mrun fuel p.re s ⟨[], []⟩ (fun rest caps =>
    if p.anchorEnd then (if rest.isEmpty then some caps else none) else some caps)

/-- Try successive starting positions, leftmost first. -/
def reSearchGo (p : PatSpec) (fuel : Nat) : List Char → Option Caps
  | [] => tryAt p fuel []
  | c :: r =>
    match tryAt p fuel (c :: r) with
    | some caps => some caps
    | none => if p.anchorStart then none else reSearchGo p fuel r

/-- `re.search(pattern, s)` restricted to the constructs above, returning
the `(old, new)` pair with the group swap applied. -/
def searchPat (p : PatSpec) (s : List Char) : Option (List Char × List Char) :=
  (reSearchGo p ((reSize p.re + 2) * (s.length + 2)) s).map (fun caps =>
    if p.swap then (caps.g2, caps.g1) else (caps.g1, caps.g2))

/-- The nine patterns of `_try_simple_replacement`, in source order. -/
def simplePatterns : List PatSpec :=
  [ ⟨rcat [rlits "replace", rsp, rword 1, rsp, rlits "with", rsp, rword 2],
      false, false, false⟩,
    ⟨rcat [rlits "change", rsp, rword 1, rsp, rlits "to", rsp, rword 2],
      false, false, false⟩,
    ⟨rcat [rlits "use", rsp, rword 1, rsp, rlits "instead", rsp, rlits "of", rsp, rword 2],
      false, false, true⟩,
    ⟨rcat [rlits "swap", rsp, rword 1, rsp, rlits "for", rsp, rword 2],
      false, false, false⟩,
    ⟨rcat [rword 1, rsp, rlits "to", rsp, rword 2],
      true, true, false⟩,
    ⟨rcat [rword 1, rspStar, RE.cls (fun c => c = '-' || c = '='), RE.lit '>', rspStar, rword 2],
      true, true, false⟩,
    ⟨rcat [rword 1, rspStar, RE.lit '/', rspStar, rword 2],
      true, true, false⟩,
    ⟨rcat [rlits "fix", rsp, ropt (RE.seq (rlits "the") rsp), rlits "spelling",
        rplus (RE.cls (fun c => c = ':' || pyWs c)), rword 1, rsp, rlits "to", rsp, rword 2],
      false, false, false⟩,
    ⟨rcat [rlits "spelling", rplus (RE.cls (fun c => c = ':' || pyWs c)),
        rword 1, rsp, rlits "to", rsp, rword 2],
      false, false, false⟩ ]

/-- The result dict of `tweak_blog` / `_try_simple_replacement`.  Optional
fields model dict keys that only some branches set. -/
structure TweakResult where
  title : List Char
  content : List Char
  word_count : Nat
  title_changed : Option Bool
  content_changed : Option Bool
  tweak_instruction : Option (List Char)
  change_ratio : Option ℚ
  method : Option (List Char)
  success : Bool
  error : Option (List Char)
deriving DecidableEq

/-- Pattern loop of `_try_simple_replacement`: the first pattern that both
matches the lowered instruction and whose replacement changes the title or
the content produces the direct result; a match that changes nothing falls
through to the next pattern. -/
def trySimpleGo (title content instruction instrLower : List Char) :
    List PatSpec → Option TweakResult
  | [] => none
  | p :: ps =>
    match searchPat p instrLower with
    | none => trySimpleGo title content instruction instrLower ps
    | some ow =>
      let new_content := replaceCI ow.1 ow.2 content
      let new_title := replaceCI ow.1 ow.2 title
      if new_content ≠ content ∨ new_title ≠ title then
        some ⟨new_title, new_content, wordCountL new_content,
          some (decide (new_title ≠ title)), some (decide (new_content ≠ content)),
          some instruction, none, some (strL "direct_replacement"), true, none⟩
      else trySimpleGo title content instruction instrLower ps

/-- `VinuchiBlogGenerator._try_simple_replacement`. -/
def try_simple_replacement (title content instruction : List Char) : Option TweakResult :=
  trySimpleGo title content instruction (stripL (lowerL instruction)) simplePatterns

/-- Title/content split applied to the LLM response in `tweak_blog`
(also strips a `TITLE:` / `CONTENT:` scaffold). -/
def parseTweakResp (modified : List Char) : (List Char × List Char) :=
  let lines := splitOnNl (stripL modified)
  let new_title := stripL (replaceEx (strL "TITLE:") [] (replaceEx ['#'] [] (lines.headD [])))
  let c0 := stripL (joinNl lines.tail)
  let new_content := if startsWithEx (strL "CONTENT:") (upperL c0) then stripL (c0.drop 8) else c0
  (new_title, new_content)

/-- `any(x in tweak_instruction.lower() for x in ['paragraph', 'section',
'rewrite', 'redo'])`. -/
def isParagraphRewrite (instruction : List Char) : Bool :=
  let il := lowerL instruction
  containsEx (strL "paragraph") il || containsEx (strL "section") il ||
    containsEx (strL "rewrite") il || containsEx (strL "redo") il

/-- `max_allowed_change`: 0.15 for rewrite-flavoured instructions, else 0.05. -/
def maxAllowedChange (instruction : List Char) : ℚ :=
  if isParagraphRewrite instruction then 3 / 20 else 1 / 20

/-- The guard-rejection error message of `tweak_blog` (the interpolated
percentage figures are elided; no property in scope depends on them). -/
def rejectMsg : List Char :=
  strL "The edit changed more of the content than the limit for this type of edit allows. Please be more specific about exactly what to change, or try a simpler instruction like changing word X to Y."

/-- `VinuchiBlogGenerator.tweak_blog(title, content, tweak_instruction)`.
The deterministic path returns immediately; otherwise the surgical LLM edit
runs, modelled by `oracle` (`Except.error` = a raised provider exception
caught by the source's `except` block).  The second component counts
text-generation calls. -/
def tweak_blog (title content tweak_instruction : List Char)
    (oracle : Except (List Char) (List Char)) : TweakResult × Nat :=
  match try_simple_replacement title content tweak_instruction with
  | some r => (r, 0)
  | none =>
    match oracle with
    | Except.error e =>
      (⟨title, content, wordCountL content, none, none, none, none, none, false, some e⟩, 1)
    | Except.ok resp =>
      let p := parseTweakResp resp
      let ccr := calculate_change_ratio content p.2
      let maxAllowed := maxAllowedChange tweak_instruction
      if maxAllowed < ccr then
        (⟨title, content, wordCountL content, none, none, none, none, none,
          false, some rejectMsg⟩, 1)
      else
        (⟨p.1, p.2, wordCountL p.2,
          some (decide (upperL p.1 ≠ upperL title)), some (decide (p.2 ≠ content)),
          some tweak_instruction, some ccr, some (strL "llm_surgical"), true, none⟩, 1)

/-!
Supporting lemmas.
-/

/-- A body of `n` words: `"w w ... w"`. -/
def mkWords : Nat → List Char
  | 0 => []
  | 1 => ['w']
  | n + 2 => 'w' :: ' ' :: mkWords (n + 1)

lemma splitWsGo_mkWords : ∀ n, splitWsGo (mkWords n) [] = List.replicate n ['w'] := by
  intro n
  induction n using mkWords.induct with
  | case1 => rfl
  | case2 => rfl
  | case3 n ih =>
    show splitWsGo ('w' :: ' ' :: mkWords (n + 1)) [] = _
    simp only [splitWsGo, pyWs, ih]
    rfl

lemma wordCountL_mkWords (n : Nat) : wordCountL (mkWords n) = n := by
  simp [wordCountL, splitWsL, splitWsGo_mkWords]

lemma tooLowMsg_ne_exceededMsg (a b : Nat) : tooLowMsg a ≠ exceededMsg b := by
  intro h
  have h11 := congrArg (fun l => l[11]?) h
  simp only [tooLowMsg, exceededMsg, List.append_assoc] at h11
  rw [List.getElem?_append_left (by decide), List.getElem?_append_left (by decide)] at h11
  revert h11
  decide

/-- C5 helper: the issue list of `_review_blog` in closed form. -/
lemma review_blog_issues (content : List Char) :
    (review_blog content).issues =
      (if wordCountL content < MIN_WORDS then [tooLowMsg (wordCountL content)]
       else if MAX_WORDS < wordCountL content then [exceededMsg (wordCountL content)]
       else []) := by
  rfl

/-- C5: with `MIN_WORDS = 550` and `MAX_WORDS = 600`, the review reports the
"too low" blocking issue exactly when the word count is strictly below 550
and the "exceeded" blocking issue exactly when it is strictly above 600;
the review passes exactly on 550..600.  In particular 549-word and 601-word
bodies fail (with the respective issue) while 550-word and 600-word bodies
pass. -/
theorem review_word_count_bounds :
    (∀ content : List Char,
      (tooLowMsg (wordCountL content) ∈ (review_blog content).issues ↔
        wordCountL content < 550) ∧
      (exceededMsg (wordCountL content) ∈ (review_blog content).issues ↔
        600 < wordCountL content) ∧
      ((review_blog content).passed = true ↔
        (550 ≤ wordCountL content ∧ wordCountL content ≤ 600))) ∧
    (review_blog (mkWords 549)).passed = false ∧
    tooLowMsg 549 ∈ (review_blog (mkWords 549)).issues ∧
    (review_blog (mkWords 550)).passed = true ∧
    (review_blog (mkWords 600)).passed = true ∧
    (review_blog (mkWords 601)).passed = false ∧
    exceededMsg 601 ∈ (review_blog (mkWords 601)).issues := by
  have main : ∀ content : List Char,
      (tooLowMsg (wordCountL content) ∈ (review_blog content).issues ↔
        wordCountL content < 550) ∧
      (exceededMsg (wordCountL content) ∈ (review_blog content).issues ↔
        600 < wordCountL content) ∧
      ((review_blog content).passed = true ↔
        (550 ≤ wordCountL content ∧ wordCountL content ≤ 600)) := by
    intro content
    set wc := wordCountL content with hwc
    have hiss : (review_blog content).issues =
        (if wc < 550 then [tooLowMsg wc] else if 600 < wc then [exceededMsg wc] else []) := rfl
    have hpassed : (review_blog content).passed =
        ((if wc < 550 then [tooLowMsg wc] else if 600 < wc then [exceededMsg wc] else []) :
          List (List Char)).isEmpty := rfl
    by_cases h1 : wc < 550
    · rw [hiss, hpassed, if_pos h1]
      refine ⟨⟨fun _ => h1, fun _ => List.mem_singleton.mpr rfl⟩, ⟨?_, ?_⟩, ⟨?_, ?_⟩⟩
      · intro hmem
        exact absurd (List.mem_singleton.mp hmem)
          (fun h => tooLowMsg_ne_exceededMsg wc wc h.symm)
      · intro h600
        exact absurd h600 (by omega)
      · intro h
        rw [List.isEmpty_cons] at h
        exact absurd h (by decide)
      · intro h
        omega
    · rw [hiss, hpassed, if_neg h1]
      by_cases h2 : 600 < wc
      · rw [if_pos h2]
        refine ⟨⟨?_, fun h => absurd h h1⟩, ⟨fun _ => h2, fun _ => List.mem_singleton.mpr rfl⟩,
          ⟨?_, ?_⟩⟩
        · intro hmem
          exact absurd (List.mem_singleton.mp hmem) (tooLowMsg_ne_exceededMsg wc wc)
        · intro h
          rw [List.isEmpty_cons] at h
          exact absurd h (by decide)
        · intro h
          omega
      · rw [if_neg h2]
        refine ⟨⟨?_, fun h => absurd h h1⟩, ⟨?_, fun h => absurd h h2⟩, ⟨fun _ => ?_, fun _ => rfl⟩⟩
        · intro hmem
          exact absurd hmem (List.not_mem_nil _)
        · intro hmem
          exact absurd hmem (List.not_mem_nil _)
        · omega
  refine ⟨main, ?_, ?_, ?_, ?_, ?_, ?_⟩
  · have h := (main (mkWords 549)).2.2
    rw [wordCountL_mkWords] at h
    exact Bool.eq_false_iff.mpr (fun hb => absurd (h.mp hb).1 (by omega))
  · have h := (main (mkWords 549)).1
    rw [wordCountL_mkWords] at h
    exact h.mpr (by omega)
  · exact ((main (mkWords 550)).2.2).mpr (by rw [wordCountL_mkWords]; omega)
  · exact ((main (mkWords 600)).2.2).mpr (by rw [wordCountL_mkWords]; omega)
  · have h := (main (mkWords 601)).2.2
    rw [wordCountL_mkWords] at h
    exact Bool.eq_false_iff.mpr (fun hb => absurd (h.mp hb).2 (by omega))
  · have h := (main (mkWords 601)).2.1
    rw [wordCountL_mkWords] at h
    exact h.mpr (by omega)

/-- Shared lemma: when any stored entry (active or not) carries the
normalized word, `add_banned_word` is a complete no-op — the existence
check of the source ignores the `active` flag and returns before logging. -/
lemma add_banned_word_noop_of_mem (m : Memory) (w reason now : List Char)
    (h : ∃ e ∈ m.banned_words, e.value = normWord w) :
    add_banned_word w reason now m = m := by
  obtain ⟨e, hmem, hval⟩ := h
  have hfil : e ∈ m.banned_words.filter (fun x => x.value = normWord w) :=
    List.mem_filter.mpr ⟨hmem, by simp [hval]⟩
  have hne : (m.banned_words.filter (fun x => x.value = normWord w)).isEmpty = false := by
    rcases hfe : m.banned_words.filter (fun x => x.value = normWord w) with _ | ⟨a, t⟩
    · rw [hfe] at hfil
      exact absurd hfil (List.not_mem_nil _)
    · rw [hfe]
      rfl
  unfold add_banned_word
  rw [if_pos hne]

/-- The claim of C6 as stated: within each rule type, adding a rule whose
normalized value matches an already-active rule leaves the number of
active rules of that type unchanged.  (Required elements are stored
unnormalized, so value equality is normalized-value equality there.) -/
def ruleAddIdempotentClaim : Prop :=
  (∀ (m : Memory) (w reason now : List Char),
    (∃ e ∈ m.banned_words, e.active = true ∧ e.value = normWord w) →
    (get_banned_words (add_banned_word w reason now m)).length =
      (get_banned_words m).length) ∧
  (∀ (m : Memory) (el reason now : List Char),
    (∃ e ∈ m.required_elements, e.active = true ∧ e.value = el) →
    (get_required_elements (add_required_element el reason now m)).length =
      (get_required_elements m).length)

/-- C6 counterexample: `add_required_element` has no duplicate check — with
one active rule `"intro"` already stored, adding `"intro"` again yields two
active required-element rules, so the claim's universal statement over all
rule types is false. -/
theorem rule_add_idempotent_claim_false : ¬ ruleAddIdempotentClaim := by
  intro h
  have hreq := h.2
    { Memory.empty with required_elements := [⟨strL "intro", [], [], true, none⟩] }
    (strL "intro") [] []
    ⟨⟨strL "intro", [], [], true, none⟩, by decide, by decide, rfl⟩
  revert hreq
  decide

/-- C6 amended: idempotent duplicate-checked addition holds for banned
words (the category the claim highlights): when a rule with the same
normalized value already exists, the second `add_banned_word` leaves the
store — in particular the active banned-word list — entirely unchanged.
It fails for required elements (see the counterexample), whose add always
appends. -/
theorem add_banned_word_idempotent (m : Memory) (w reason now : List Char)
    (h : ∃ e ∈ m.banned_words, e.active = true ∧ e.value = normWord w) :
    add_banned_word w reason now m = m ∧
    (get_banned_words (add_banned_word w reason now m)).length =
      (get_banned_words m).length := by
  obtain ⟨e, hmem, _, hval⟩ := h
  have heq := add_banned_word_noop_of_mem m w reason now ⟨e, hmem, hval⟩
  exact ⟨heq, by rw [heq]⟩

/-- C6 witness. -/
theorem add_banned_word_idempotent_witness :
    (let m₁ := add_banned_word (strL "Cheap") [] [] Memory.empty
     add_banned_word (strL "cheap ") [] [] m₁ = m₁) ∧
    (∃ e ∈ (add_banned_word (strL "Cheap") [] [] Memory.empty).banned_words,
      e.active = true ∧ e.value = normWord (strL "cheap ")) := by
  refine ⟨?_, by decide⟩
  exact (add_banned_word_idempotent (add_banned_word (strL "Cheap") [] [] Memory.empty)
    (strL "cheap ") [] []
    ⟨⟨strL "cheap", [], [], true, none⟩, by decide, by decide, by decide⟩).1

/-- C7 helper: deactivating the matching entries commutes with the
active-filtered value view. -/
lemma get_banned_words_after_remove (l : List PrefEntry) (n now : List Char) :
    ((l.map (fun e => if e.value = n then
        { e with active := false, removed_at := some now } else e)).filter
      (fun e => e.active)).map (fun e => e.value)
    = ((l.filter (fun e => e.active)).map (fun e => e.value)).filter
        (fun v => decide (v ≠ n)) := by
  induction l with
  | nil => rfl
  | cons e t ih =>
    by_cases hv : e.value = n
    · rcases ha : e.active with _ | _
      · simp [hv, ha, ih]
      · simp [hv, ha, ih]
    · rcases ha : e.active with _ | _
      · simp [hv, ha, ih]
      · simp [hv, ha, ih]

/-- C7: removal is a soft delete: every entry whose stored word equals the
normalized argument is kept in the list but switched inactive with
`removed_at` stamped, non-matching entries are untouched, the stored list
keeps its length, and the active view equals the previous active view with
the removed word filtered out (insertion order preserved). -/
theorem remove_banned_word_soft_delete (m : Memory) (w now : List Char) :
    (remove_banned_word w now m).banned_words.length = m.banned_words.length ∧
    (∀ e ∈ m.banned_words, e.value = normWord w →
      ({ e with active := false, removed_at := some now } : PrefEntry) ∈
        (remove_banned_word w now m).banned_words) ∧
    (∀ e ∈ m.banned_words, e.value ≠ normWord w →
      e ∈ (remove_banned_word w now m).banned_words) ∧
    get_banned_words (remove_banned_word w now m) =
      (get_banned_words m).filter (fun v => decide (v ≠ normWord w)) := by
  refine ⟨?_, ?_, ?_, ?_⟩
  · simp [remove_banned_word, log_learning]
  · intro e hmem hval
    simp only [remove_banned_word, log_learning]
    exact List.mem_map.mpr ⟨e, hmem, by rw [if_pos hval]⟩
  · intro e hmem hval
    simp only [remove_banned_word, log_learning]
    exact List.mem_map.mpr ⟨e, hmem, by rw [if_neg hval]⟩
  · simp only [remove_banned_word, log_learning, get_banned_words]
    exact get_banned_words_after_remove m.banned_words (normWord w) now

/-- C9: the duplicate check of `add_banned_word` ignores the `active` flag,
so once `remove_banned_word` has deactivated a stored banned word, adding
the same normalized word back is a complete no-op: the store is unchanged
and the word is still missing from the active banned list. -/
theorem removed_banned_word_cannot_be_rebanned (m : Memory)
    (w reason now1 now2 : List Char)
    (h : ∃ e ∈ m.banned_words, e.value = normWord w) :
    (add_banned_word w reason now2 (remove_banned_word w now1 m) =
      remove_banned_word w now1 m) ∧
    normWord w ∉ get_banned_words (remove_banned_word w now1 m) ∧
    normWord w ∉ get_banned_words
      (add_banned_word w reason now2 (remove_banned_word w now1 m)) := by
  obtain ⟨e, hmem, hval⟩ := h
  have hmem1 : ({ e with active := false, removed_at := some now1 } : PrefEntry) ∈
      (remove_banned_word w now1 m).banned_words := by
    simp only [remove_banned_word, log_learning]
    exact List.mem_map.mpr ⟨e, hmem, by rw [if_pos hval]⟩
  have hnoop := add_banned_word_noop_of_mem (remove_banned_word w now1 m) w reason now2
    ⟨_, hmem1, hval⟩
  have hout : normWord w ∉ get_banned_words (remove_banned_word w now1 m) := by
    intro hin
    simp only [remove_banned_word, log_learning, get_banned_words] at hin
    obtain ⟨e', he', hv'⟩ := List.mem_map.mp hin
    obtain ⟨he'a, hact⟩ := List.mem_filter.mp he'
    obtain ⟨e0, he0, hfe0⟩ := List.mem_map.mp he'a
    by_cases h0 : e0.value = normWord w
    · rw [if_pos h0] at hfe0
      rw [← hfe0] at hact
      exact absurd hact (by simp)
    · rw [if_neg h0] at hfe0
      rw [← hfe0] at hv'
      exact absurd hv' h0
  exact ⟨hnoop, hout, by rw [hnoop]; exact hout⟩

/-- C9 witness. -/
theorem removed_banned_word_cannot_be_rebanned_witness :
    (let m₀ := add_banned_word (strL "Foo") [] [] Memory.empty
     let m₁ := remove_banned_word (strL "foo") (strL "t1") m₀
     add_banned_word (strL "foo") [] (strL "t2") m₁ = m₁ ∧
       normWord (strL "foo") ∉ get_banned_words m₁) := by
  have h := removed_banned_word_cannot_be_rebanned
    (add_banned_word (strL "Foo") [] [] Memory.empty)
    (strL "foo") [] (strL "t1") (strL "t2")
    ⟨⟨strL "foo", [], [], true, none⟩, by decide, by decide⟩
  exact ⟨h.1, h.2.1⟩

lemma bannedIssueMsg_inj {w w' : List Char} (h : bannedIssueMsg w = bannedIssueMsg w') :
    w = w' := by
  simp only [bannedIssueMsg, List.append_assoc] at h
  have h1 := List.append_cancel_left h
  have h2 := List.append_cancel_left h1
  exact List.append_cancel_right h2

lemma bannedIssueMsg_ne_dash (w : List Char) : bannedIssueMsg w ≠ dashIssueMsg := by
  intro h
  have h9 := congrArg (fun l => l[9]?) h
  simp only [bannedIssueMsg, List.append_assoc] at h9
  rw [List.getElem?_append_left (by decide)] at h9
  revert h9
  decide

lemma bannedIssueMsg_ne_bullet (w : List Char) : bannedIssueMsg w ≠ bulletIssueMsg := by
  intro h
  have h10 := congrArg (fun l => l[10]?) h
  simp only [bannedIssueMsg, List.append_assoc] at h10
  rw [List.getElem?_append_left (by decide)] at h10
  revert h10
  decide

lemma bannedIssueMsg_ne_dup (w t : List Char) : bannedIssueMsg w ≠ dupIssueMsg t := by
  intro h
  have h4 := congrArg (fun l => l[4]?) h
  simp only [bannedIssueMsg, dupIssueMsg, List.append_assoc] at h4
  rw [List.getElem?_append_left (by decide), List.getElem?_append_left (by decide)] at h4
  revert h4
  decide

lemma formattingIssuesFor_mem {c r x : List Char} (h : x ∈ formattingIssuesFor c r) :
    x = dashIssueMsg ∨ x = bulletIssueMsg := by
  simp only [formattingIssuesFor] at h
  rcases List.mem_append.mp h with h1 | h2
  · split at h1
    · exact Or.inl (List.mem_singleton.mp h1)
    · exact absurd h1 (List.not_mem_nil _)
  · split at h2
    · exact Or.inr (List.mem_singleton.mp h2)
    · exact absurd h2 (List.not_mem_nil _)

lemma validate_content_issues (content : List Char) (m : Memory) :
    (validate_content content m).issues =
      ((get_banned_words m).filter (fun w => containsEx w (lowerL content))).map bannedIssueMsg
      ++ (get_formatting_rules m).flatMap (formattingIssuesFor content)
      ++ (match is_duplicate content (9 / 10) m with
          | some d => [dupIssueMsg d.title]
          | none => []) := rfl

/-- C10: `validate_content` matches banned words as raw substrings of the
lowercased body, not as whole words: for an active banned word `w`, the
issue naming `w` is present exactly when `w` occurs as a contiguous
substring of the lowercased body (so "art" is flagged inside
"particular"; see the witness). -/
theorem validate_banned_substring (m : Memory) (content w : List Char)
    (hw : w ∈ get_banned_words m) :
    bannedIssueMsg w ∈ (validate_content content m).issues ↔
      containsEx w (lowerL content) = true := by
  rw [validate_content_issues]
  constructor
  · intro hmem
    rcases List.mem_append.mp hmem with h12 | h3
    · rcases List.mem_append.mp h12 with h1 | h2
      · obtain ⟨w', hw', heq⟩ := List.mem_map.mp h1
        obtain ⟨_, hsub⟩ := List.mem_filter.mp hw'
        rw [bannedIssueMsg_inj heq] at hsub
        exact hsub
      · obtain ⟨r, _, hxr⟩ := List.mem_flatMap.mp h2
        rcases formattingIssuesFor_mem hxr with hd | hb
        · exact absurd hd.symm (Ne.symm (bannedIssueMsg_ne_dash w))
        · exact absurd hb.symm (Ne.symm (bannedIssueMsg_ne_bullet w))
    · revert h3
      rcases is_duplicate content (9 / 10) m with _ | d
      · intro h3
        exact absurd h3 (List.not_mem_nil _)
      · intro h3
        exact absurd (List.mem_singleton.mp h3) (bannedIssueMsg_ne_dup w d.title)
  · intro hsub
    exact List.mem_append.mpr (Or.inl (List.mem_append.mpr (Or.inl
      (List.mem_map.mpr ⟨w, List.mem_filter.mpr ⟨hw, hsub⟩, rfl⟩))))

/-- C10 witness: the banned word "art" is flagged inside "particular". -/
theorem validate_banned_substring_witness :
    strL "art" ∈ get_banned_words (add_banned_word (strL "art") [] [] Memory.empty) ∧
    containsEx (strL "art") (lowerL (strL "This particular tie")) = true ∧
    bannedIssueMsg (strL "art") ∈
      (validate_content (strL "This particular tie")
        (add_banned_word (strL "art") [] [] Memory.empty)).issues := by
  refine ⟨by decide, by decide, ?_⟩
  exact (validate_banned_substring (add_banned_word (strL "art") [] [] Memory.empty)
    (strL "This particular tie") (strL "art") (by decide)).mpr (by decide)

lemma dupHashLoop_eq_find (h : List Char) (l : List HashEntry) :
    dupHashLoop h l = (l.find? (fun e => e.hash = h)).map
      (fun e => ⟨DupType.exact, e.blog_id, e.title, none⟩) := by
  induction l with
  | nil => rfl
  | cons e t ih =>
    by_cases he : e.hash = h
    · simp [dupHashLoop, he]
    · simp [dupHashLoop, he, ih]

lemma dupFuzzyLoop_eq_find (content : List Char) (θ : ℚ) (l : List BlogEntry) :
    dupFuzzyLoop content θ l =
      (l.find? (fun b => decide (θ < overlapQ content b.content))).map
        (fun b => ⟨DupType.similar, b.id, b.title, some (overlapQ content b.content)⟩) := by
  induction l with
  | nil => rfl
  | cons b t ih =>
    by_cases hb : θ < overlapQ content b.content
    · simp [dupFuzzyLoop, hb]
    · simp [dupFuzzyLoop, hb, ih]

lemma dupHashLoop_dtype {h : List Char} {l : List HashEntry} {d : DupResult}
    (hd : dupHashLoop h l = some d) : d.dtype = DupType.exact := by
  induction l with
  | nil => cases hd
  | cons e t ih =>
    by_cases he : e.hash = h
    · simp only [dupHashLoop, if_pos he, Option.some_inj] at hd
      rw [← hd]
    · simp only [dupHashLoop, if_neg he] at hd
      exact ih hd

lemma dupHashLoop_append_isSome (h : List Char) (l : List HashEntry) (e : HashEntry)
    (he : e.hash = h) : (dupHashLoop h (l ++ [e])).isSome = true := by
  induction l with
  | nil => simp [dupHashLoop, he]
  | cons f t ih =>
    by_cases hf : f.hash = h
    · simp [dupHashLoop, hf]
    · simpa [dupHashLoop, hf] using ih

/-- The duplicate-check contract in the spec's words: an exact
normalized-hash match against the hash index wins first (first matching
entry, classified `exact`); otherwise the first stored item whose
lowercased word-set overlap ratio `|A ∩ B| / max(|A|, |B|)` strictly
exceeds the threshold is returned as `similar`; otherwise no result. -/
def isDuplicateSpec (content : List Char) (threshold : ℚ) (m : Memory) : Option DupResult :=
  match m.content_hashes.find? (fun e => e.hash = hash_content content) with
  | some e => some ⟨DupType.exact, e.blog_id, e.title, none⟩
  | none =>
    match m.generated_blogs.find? (fun b => decide (threshold < overlapQ content b.content)) with
    | some b => some ⟨DupType.similar, b.id, b.title, some (overlapQ content b.content)⟩
    | none => none

/-- C8: `is_duplicate` implements the spec's contract: hash-index exact
match first (any case/whitespace variant of a saved body shares its hash),
then the first stored item whose word-set overlap ratio strictly exceeds
the threshold as `similar`, else `null`.  Moreover, after saving a body,
`is_duplicate` on any case/whitespace variant of it reports an exact
duplicate. -/
theorem is_duplicate_matches_spec (content : List Char) (threshold : ℚ) (m : Memory) :
    is_duplicate content threshold m = isDuplicateSpec content threshold m ∧
    (∀ title topic status now v : List Char,
      hash_content v = hash_content content →
      ∃ d, is_duplicate v threshold
          (save_generated_blog title content topic status now m).2 = some d ∧
        d.dtype = DupType.exact) := by
  constructor
  · unfold is_duplicate isDuplicateSpec
    rw [dupHashLoop_eq_find, dupFuzzyLoop_eq_find]
    generalize m.content_hashes.find? (fun e => e.hash = hash_content content) = A
    generalize m.generated_blogs.find?
      (fun b => decide (threshold < overlapQ content b.content)) = B
    cases A <;> cases B <;> rfl
  · intro title topic status now v hv
    have hhs : (save_generated_blog title content topic status now m).2.content_hashes =
        m.content_hashes ++
          [⟨hash_content content,
            strL "blog_" ++ now ++ strL "_" ++ strL (toString m.generated_blogs.length),
            title⟩] := rfl
    have hsome := dupHashLoop_append_isSome (hash_content v) m.content_hashes
      ⟨hash_content content,
        strL "blog_" ++ now ++ strL "_" ++ strL (toString m.generated_blogs.length),
        title⟩ hv.symm
    obtain ⟨d, hd⟩ := Option.isSome_iff_exists.mp hsome
    refine ⟨d, ?_, dupHashLoop_dtype hd⟩
    unfold is_duplicate
    rw [hhs, hd]

/-- C1 helper: when the oracle answers every attempt and every draft fails
review, the loop runs through all its attempts and ends on the last
draft. -/
lemma genLoop_all_fail (oracle : Nat → Option (List Char)) :
    ∀ remaining attempt,
      (∀ i, attempt ≤ i → i ≤ attempt + remaining →
        ∃ t, oracle i = some t ∧ (review_blog (parseDraft t).2).passed = false) →
      ∃ t, oracle (attempt + remaining) = some t ∧
        genLoop oracle attempt remaining =
          LoopOut.done t (parseDraft t).1 (parseDraft t).2
            (review_blog (parseDraft t).2) (attempt + remaining) := by
  intro remaining
  induction remaining with
  | zero =>
    intro attempt h
    obtain ⟨t, hor, hrev⟩ := h attempt le_rfl (by omega)
    refine ⟨t, by simpa using hor, ?_⟩
    simp [genLoop, hor]
  | succ r ih =>
    intro attempt h
    obtain ⟨t, hor, hrev⟩ := h attempt le_rfl (by omega)
    obtain ⟨t', hor', hloop'⟩ := ih (attempt + 1) (fun i h1 h2 => h i (by omega) (by omega))
    refine ⟨t', by rw [show attempt + (r + 1) = attempt + 1 + r by omega]; exact hor', ?_⟩
    rw [show attempt + (r + 1) = attempt + 1 + r by omega]
    simp only [genLoop, hor, hrev, Bool.false_eq_true, if_false]
    exact hloop'

/-- C1: when the usage limiter allows the call, the oracle answers every
attempt, and the review fails on every attempt, `generate` makes exactly
`max_attempts` text-generation calls, returns the last draft with a merged
validation whose `valid` flag is false, does not save (`blog_id = none`),
and leaves the store — in particular the blog list and hash index —
unchanged. -/
theorem generate_retry_exhaustion (oracle : Nat → Option (List Char))
    (topic now : List Char) (save : Bool) (m : Memory) (max_attempts : Nat)
    (hm : 1 ≤ max_attempts)
    (hfail : ∀ i, 1 ≤ i → i ≤ max_attempts →
      ∃ t, oracle i = some t ∧ (review_blog (parseDraft t).2).passed = false) :
    ∃ res : GenResult,
      generate true oracle topic save max_attempts now m =
        ⟨GenOutcome.ok res m, max_attempts, 1⟩ ∧
      res.validation.valid = false ∧ res.attempts = max_attempts ∧ res.blog_id = none ∧
      ∃ t, oracle max_attempts = some t ∧ res.full_text = t ∧
        res.content = (parseDraft t).2 := by
  have hsum : 1 + (max_attempts - 1) = max_attempts := by omega
  obtain ⟨t, hor, hloop⟩ := genLoop_all_fail oracle (max_attempts - 1) 1
    (fun i h1 h2 => hfail i h1 (by omega))
  rw [hsum] at hor hloop
  obtain ⟨t', hor', hrev'⟩ := hfail max_attempts hm le_rfl
  rw [hor] at hor'
  have ht : t' = t := by injection hor'.symm
  rw [ht] at hrev'
  refine ⟨⟨(parseDraft t).1, (parseDraft t).2, t, topic,
      (review_blog (parseDraft t).2).word_count,
      ⟨false,
        (validate_content t m).issues ++ (review_blog (parseDraft t).2).issues,
        (validate_content t m).warnings ++ (review_blog (parseDraft t).2).warnings⟩,
      max_attempts, none⟩, ?_, rfl, rfl, rfl, t, hor, rfl, rfl⟩
  unfold generate
  rw [if_neg (by decide : ¬(true = false))]
  rw [hloop]
  simp only [hrev', Bool.and_false, Bool.false_eq_true, if_false]

/-- C1 witness: a constant two-word draft fails review on all three
attempts. -/
theorem generate_retry_exhaustion_witness :
    1 ≤ 3 ∧
    (∃ res : GenResult,
      generate true (fun _ => some (strL "TITLE\ntiny body")) (strL "topic") true 3 []
          Memory.empty =
        ⟨GenOutcome.ok res Memory.empty, 3, 1⟩ ∧
      res.validation.valid = false ∧ res.attempts = 3 ∧ res.blog_id = none ∧
      ∃ t, (fun _ : Nat => some (strL "TITLE\ntiny body")) 3 = some t ∧
        res.full_text = t ∧ res.content = (parseDraft t).2) := by
  refine ⟨by omega, ?_⟩
  exact generate_retry_exhaustion (fun _ => some (strL "TITLE\ntiny body"))
    (strL "topic") [] true Memory.empty 3 (by omega)
    (fun i _ _ => ⟨strL "TITLE\ntiny body", rfl, by decide⟩)

/-- Whether a `generate` outcome carries a returned result dict. -/
def GenOutcome.isOk : GenOutcome → Bool
  | GenOutcome.ok _ _ => true
  | _ => false

/-- The claim of C3 as stated: every non-short-circuited `generate` call
records exactly one usage unit, and an exhausted budget short-circuits
with the limit signal before any generation call. -/
def usageOneUnitClaim : Prop :=
  (∀ (oracle : Nat → Option (List Char)) (topic now : List Char) (save : Bool)
      (max_attempts : Nat) (m : Memory),
    1 ≤ max_attempts →
    (generate true oracle topic save max_attempts now m).usage_recorded = 1) ∧
  (∀ (oracle : Nat → Option (List Char)) (topic now : List Char) (save : Bool)
      (max_attempts : Nat) (m : Memory),
    generate false oracle topic save max_attempts now m =
      ⟨GenOutcome.limitExceeded, 0, 0⟩)

/-- C3 counterexample: when the provider raises on the first attempt,
`generate` returns `None` without ever reaching `record_usage`, so that
call consumes zero units, not one. -/
theorem usage_one_unit_claim_false : ¬ usageOneUnitClaim := by
  intro h
  have hc := h.1 (fun _ => none) [] [] false 3 Memory.empty (by omega)
  revert hc
  decide

/-- C3 amended: an exhausted budget short-circuits with the limit signal,
zero generation calls and zero usage recorded; an allowed call records
exactly one usage unit when it returns a result dict and zero when a
provider error makes it return `None`. -/
theorem generate_usage_accounting (oracle : Nat → Option (List Char))
    (topic now : List Char) (save : Bool) (max_attempts : Nat) (m : Memory) :
    generate false oracle topic save max_attempts now m =
      ⟨GenOutcome.limitExceeded, 0, 0⟩ ∧
    (generate true oracle topic save max_attempts now m).usage_recorded =
      (if (generate true oracle topic save max_attempts now m).outcome.isOk then 1 else 0) := by
  constructor
  · rfl
  · unfold generate
    rw [if_neg (by decide : ¬(true = false))]
    cases hl : genLoop oracle 1 (max_attempts - 1) with
    | apiError calls => rfl
    | done raw title content review attempt =>
      simp only []
      split
      · rfl
      · rfl

lemma toNat_ofNat_valid (n : Nat) (h : n.isValidChar) : (Char.ofNat n).toNat = n := by
  unfold Char.ofNat
  rw [dif_pos h]
  rfl

lemma toLower_toUpper (c : Char) : c.toUpper.toLower = c.toLower := by
  dsimp only [Char.toUpper, Char.toLower]
  by_cases h : c.toNat ≥ 97 ∧ c.toNat ≤ 122
  · rw [if_pos h]
    have hv : (c.toNat - 32).isValidChar := by
      left
      omega
    have ht : (Char.ofNat (c.toNat - 32)).toNat = c.toNat - 32 := toNat_ofNat_valid _ hv
    rw [ht]
    rw [if_pos (by omega : c.toNat - 32 ≥ 65 ∧ c.toNat - 32 ≤ 90)]
    rw [if_neg (by omega : ¬(c.toNat ≥ 65 ∧ c.toNat ≤ 90))]
    rw [show c.toNat - 32 + 32 = c.toNat by omega, Char.ofNat_toNat]
  · rw [if_neg h]

lemma toLower_toLower (c : Char) : c.toLower.toLower = c.toLower := by
  dsimp only [Char.toLower]
  by_cases h : c.toNat ≥ 65 ∧ c.toNat ≤ 90
  · rw [if_pos h]
    have hv : (c.toNat + 32).isValidChar := by
      left
      omega
    have ht : (Char.ofNat (c.toNat + 32)).toNat = c.toNat + 32 := toNat_ofNat_valid _ hv
    rw [ht]
    rw [if_neg (by omega : ¬(c.toNat + 32 ≥ 65 ∧ c.toNat + 32 ≤ 90))]
  · rw [if_neg h, if_neg h]

lemma lowerL_upperL (s : List Char) : lowerL (upperL s) = lowerL s := by
  simp only [lowerL, upperL, List.map_map]
  exact List.map_congr_left (fun c _ => toLower_toUpper c)

lemma lowerL_lowerL (s : List Char) : lowerL (lowerL s) = lowerL s := by
  simp only [lowerL, List.map_map]
  exact List.map_congr_left (fun c _ => toLower_toLower c)

lemma lowerL_pyTitleGo : ∀ (b : Bool) (s : List Char), lowerL (pyTitleGo b s) = lowerL s := by
  intro b s
  induction s generalizing b with
  | nil => rfl
  | cons c r ih =>
    by_cases hc : (c.isUpper || c.isLower) = true
    · rcases b with _ | _
      · simp only [pyTitleGo, hc, if_pos, if_false, Bool.false_eq_true, lowerL, List.map_cons]
        rw [toLower_toUpper]
        exact congrArg (fun l => c.toLower :: l) (ih true)
      · simp only [pyTitleGo, hc, if_pos, lowerL, List.map_cons]
        rw [toLower_toLower]
        exact congrArg (fun l => c.toLower :: l) (ih true)
    · simp only [pyTitleGo, hc, Bool.false_eq_true, if_false, lowerL, List.map_cons]
      exact congrArg (fun l => c.toLower :: l) (ih false)

lemma lowerL_caseApply (pre new : List Char) : lowerL (caseApply pre new) = lowerL new := by
  unfold caseApply
  split
  · exact lowerL_upperL new
  · split
    · exact lowerL_pyTitleGo false new
    · exact lowerL_lowerL new

lemma pyTitleGo_length : ∀ (b : Bool) (s : List Char), (pyTitleGo b s).length = s.length := by
  intro b s
  induction s generalizing b with
  | nil => rfl
  | cons c r ih =>
    by_cases hc : (c.isUpper || c.isLower) = true
    · simp only [pyTitleGo, hc, if_pos, List.length_cons, ih]
    · simp only [pyTitleGo, hc, Bool.false_eq_true, if_false, List.length_cons, ih]

lemma caseApply_length (pre new : List Char) : (caseApply pre new).length = new.length := by
  unfold caseApply
  split
  · exact List.length_map _ _
  · split
    · exact pyTitleGo_length false new
    · exact List.length_map _ _

lemma startsWithCI_le {old s : List Char} (h : startsWithCI old s = true) :
    old.length ≤ s.length := by
  induction old generalizing s with
  | nil => simp
  | cons o os ih =>
    cases s with
    | nil => cases h
    | cons c cs =>
      simp only [startsWithCI, Bool.and_eq_true] at h
      simpa using ih h.2

lemma startsWithCI_lower {old s : List Char} (h : startsWithCI old s = true) :
    lowerL (List.take old.length s) = lowerL old := by
  induction old generalizing s with
  | nil => rfl
  | cons o os ih =>
    cases s with
    | nil => cases h
    | cons c cs =>
      simp only [startsWithCI, Bool.and_eq_true, charEqCI, decide_eq_true_eq] at h
      simp only [List.length_cons, List.take_succ_cons, lowerL, List.map_cons]
      rw [h.1]
      exact congrArg (fun l => c.toLower :: l) (ih h.2)

lemma replaceCIGo_skip (old new : List Char) : ∀ (k : Nat) (s : List Char),
    replaceCIGo old new k s = replaceCI old new (List.drop k s) := by
  intro k
  induction k with
  | zero =>
    intro s
    cases s <;> rfl
  | succ n ih =>
    intro s
    cases s with
    | nil => rfl
    | cons c cs =>
      rw [List.drop_succ_cons]
      exact ih cs

lemma replaceCI_cons (old new : List Char) (c : Char) (cs : List Char) :
    replaceCI old new (c :: cs) =
      if startsWithCI old (c :: cs) = true then
        caseApply (List.take old.length (c :: cs)) new ++
          replaceCI old new (List.drop (old.length - 1) cs)
      else c :: replaceCI old new cs := by
  have h0 : replaceCI old new (c :: cs) =
      if startsWithCI old (c :: cs) = true then
        caseApply (List.take old.length (c :: cs)) new ++
          replaceCIGo old new (old.length - 1) cs
      else c :: replaceCIGo old new 0 cs := rfl
  rw [h0, replaceCIGo_skip, replaceCIGo_skip]
  rfl

lemma replaceCI_rec (old : List Char) {motive : List Char → Prop}
    (case1 : motive [])
    (case2 : ∀ c r, startsWithCI old (c :: r) = true →
      motive (List.drop (old.length - 1) r) → motive (c :: r))
    (case3 : ∀ c r, ¬ startsWithCI old (c :: r) = true → motive r → motive (c :: r)) :
    ∀ s, motive s := by
  suffices h : ∀ n (s : List Char), s.length ≤ n → motive s by
    exact fun s => h s.length s le_rfl
  intro n
  induction n with
  | zero =>
    intro s hs
    cases s with
    | nil => exact case1
    | cons c r => simp at hs
  | succ n ih =>
    intro s hs
    cases s with
    | nil => exact case1
    | cons c r =>
      simp only [List.length_cons] at hs
      by_cases hs1 : startsWithCI old (c :: r) = true
      · refine case2 c r hs1 (ih _ ?_)
        simp only [List.length_drop]
        omega
      · exact case3 c r hs1 (ih r (by omega))

lemma replaceCI_length_le (old new : List Char) (hlen : new.length ≤ old.length) :
    ∀ s, (replaceCI old new s).length ≤ s.length := by
  intro s
  induction s using replaceCI_rec old with
  | case1 => simp [replaceCI, replaceCIGo]
  | case2 c r hs ih =>
    rw [replaceCI_cons, if_pos hs]
    have hle := startsWithCI_le hs
    simp only [List.length_cons] at hle
    simp only [List.length_append, caseApply_length, List.length_drop, List.length_cons] at ih
    simp only [List.length_append, caseApply_length, List.length_drop, List.length_cons]
    omega
  | case3 c r hs ih =>
    rw [replaceCI_cons, if_neg hs]
    simpa using ih

lemma replaceCI_length_ge (old new : List Char) (hlen : old.length ≤ new.length)
    (hone : old ≠ []) :
    ∀ s, s.length ≤ (replaceCI old new s).length := by
  intro s
  induction s using replaceCI_rec old with
  | case1 => simp [replaceCI, replaceCIGo]
  | case2 c r hs ih =>
    rw [replaceCI_cons, if_pos hs]
    have hle := startsWithCI_le hs
    simp only [List.length_cons] at hle
    have hone' : 1 ≤ old.length := List.length_pos.mpr hone
    simp only [List.length_append, caseApply_length, List.length_drop, List.length_cons] at ih
    simp only [List.length_append, caseApply_length, List.length_drop, List.length_cons]
    omega
  | case3 c r hs ih =>
    rw [replaceCI_cons, if_neg hs]
    simpa using ih

lemma containsCI_tail {old : List Char} {c : Char} {cs : List Char}
    (h : containsCI old (c :: cs) = true) (hs : ¬ startsWithCI old (c :: cs) = true) :
    containsCI old cs = true := by
  simp only [containsCI, Bool.or_eq_true] at h
  rcases h with h | h
  · exact absurd h hs
  · exact h

lemma replaceCI_length_lt (old new : List Char) (hlen : new.length < old.length) :
    ∀ s, containsCI old s = true → (replaceCI old new s).length < s.length := by
  intro s
  induction s using replaceCI_rec old with
  | case1 =>
    intro hc
    cases old with
    | nil => simp at hlen
    | cons o os => simp [containsCI, startsWithCI] at hc
  | case2 c r hs ih =>
    intro _
    rw [replaceCI_cons, if_pos hs]
    have hle := startsWithCI_le hs
    simp only [List.length_cons] at hle
    have hrec := replaceCI_length_le old new (by omega) (List.drop (old.length - 1) r)
    simp only [List.length_drop] at hrec
    simp only [List.length_append, caseApply_length, List.length_drop, List.length_cons]
    omega
  | case3 c r hs ih =>
    intro hc
    rw [replaceCI_cons, if_neg hs]
    have := ih (containsCI_tail hc hs)
    simpa using this

lemma replaceCI_length_gt (old new : List Char) (hlen : old.length < new.length)
    (hone : old ≠ []) :
    ∀ s, containsCI old s = true → s.length < (replaceCI old new s).length := by
  intro s
  induction s using replaceCI_rec old with
  | case1 =>
    intro hc
    cases old with
    | nil => exact absurd rfl hone
    | cons o os => simp [containsCI, startsWithCI] at hc
  | case2 c r hs ih =>
    intro _
    rw [replaceCI_cons, if_pos hs]
    have hle := startsWithCI_le hs
    simp only [List.length_cons] at hle
    have hone' : 1 ≤ old.length := List.length_pos.mpr hone
    have hrec := replaceCI_length_ge old new (by omega) hone (List.drop (old.length - 1) r)
    simp only [List.length_drop] at hrec
    simp only [List.length_append, caseApply_length, List.length_drop, List.length_cons]
    omega
  | case3 c r hs ih =>
    intro hc
    rw [replaceCI_cons, if_neg hs]
    have := ih (containsCI_tail hc hs)
    simpa using this

lemma replaceCI_ne_of_eq_len (old new : List Char) (hlen : old.length = new.length)
    (hold : lowerL old = old) (hnew : lowerL new = new) (hne : old ≠ new) :
    ∀ s, containsCI old s = true → replaceCI old new s ≠ s := by
  intro s
  induction s using replaceCI_rec old with
  | case1 =>
    intro hc heq
    cases old with
    | nil =>
      cases new with
      | nil => exact hne rfl
      | cons n ns => exact absurd hlen (by simp)
    | cons o os => simp [containsCI, startsWithCI] at hc
  | case2 c r hs ih =>
    intro _ heq
    rw [replaceCI_cons, if_pos hs] at heq
    have hcl : (caseApply (List.take old.length (c :: r)) new).length = old.length := by
      rw [caseApply_length, hlen]
    have htake := congrArg (List.take old.length) heq
    rw [List.take_left' hcl] at htake
    have hlow := congrArg lowerL htake
    rw [lowerL_caseApply, hnew, startsWithCI_lower hs, hold] at hlow
    exact hne hlow.symm
  | case3 c r hs ih =>
    intro hc heq
    rw [replaceCI_cons, if_neg hs] at heq
    injection heq with h1 h2
    exact ih (containsCI_tail hc hs) h2

/-- Key C4 lemma: a case-insensitive occurrence of `old` and `old ≠ new`
(both lowercase, as `\w+` groups of a lowercased instruction are) force the
case-preserving replacement to change the text. -/
lemma replaceCI_changes (old new s : List Char) (hone : old ≠ [])
    (hold : lowerL old = old) (hnew : lowerL new = new) (hne : old ≠ new)
    (hc : containsCI old s = true) : replaceCI old new s ≠ s := by
  rcases Nat.lt_trichotomy new.length old.length with hl | he | hg
  · intro heq
    have := replaceCI_length_lt old new hl s hc
    rw [heq] at this
    omega
  · exact replaceCI_ne_of_eq_len old new he.symm hold hnew hne s hc
  · intro heq
    have := replaceCI_length_gt old new hg hone s hc
    rw [heq] at this
    omega

/-- Patterns whose match changes nothing (or that do not match) are skipped
by the pattern loop. -/
lemma trySimpleGo_skip (title content instruction instrLower : List Char)
    (ps1 ps2 : List PatSpec)
    (hskip : ∀ q ∈ ps1, searchPat q instrLower = none ∨
      ∃ o2 n2, searchPat q instrLower = some (o2, n2) ∧
        replaceCI o2 n2 content = content ∧ replaceCI o2 n2 title = title) :
    trySimpleGo title content instruction instrLower (ps1 ++ ps2) =
      trySimpleGo title content instruction instrLower ps2 := by
  induction ps1 with
  | nil => rfl
  | cons q qs ih =>
    rcases hskip q (List.mem_cons_self q qs) with hq | ⟨o2, n2, hq, hc2, ht2⟩
    · simp only [List.cons_append, trySimpleGo, hq]
      exact ih (fun x hx => hskip x (List.mem_cons_of_mem q hx))
    · simp only [List.cons_append, trySimpleGo, hq]
      rw [if_neg (by simp [hc2, ht2])]
      exact ih (fun x hx => hskip x (List.mem_cons_of_mem q hx))

/-- C4: when the lowered instruction matches one of the replacement
phrasings (all earlier patterns skipping), extracting `old`/`new` word
tokens with `old` occurring (case-insensitively) in the title or the body,
`tweak_blog` returns immediately from the deterministic path: both title
and body get the case-preserving find-and-replace, `success` is true,
`method` is the direct path, and zero text-generation calls are made. -/
theorem tweak_direct_replacement (title content instruction : List Char)
    (oracle : Except (List Char) (List Char))
    (ps1 ps2 : List PatSpec) (p : PatSpec) (old new : List Char)
    (hps : simplePatterns = ps1 ++ p :: ps2)
    (hskip : ∀ q ∈ ps1, searchPat q (stripL (lowerL instruction)) = none ∨
      ∃ o2 n2, searchPat q (stripL (lowerL instruction)) = some (o2, n2) ∧
        replaceCI o2 n2 content = content ∧ replaceCI o2 n2 title = title)
    (hmatch : searchPat p (stripL (lowerL instruction)) = some (old, new))
    (hone : old ≠ []) (hold : lowerL old = old) (hnew : lowerL new = new)
    (hne : old ≠ new)
    (hocc : containsCI old title = true ∨ containsCI old content = true) :
    tweak_blog title content instruction oracle =
      (⟨replaceCI old new title, replaceCI old new content,
        wordCountL (replaceCI old new content),
        some (decide (replaceCI old new title ≠ title)),
        some (decide (replaceCI old new content ≠ content)),
        some instruction, none, some (strL "direct_replacement"), true, none⟩, 0) := by
  have hchange : replaceCI old new content ≠ content ∨ replaceCI old new title ≠ title := by
    rcases hocc with h | h
    · exact Or.inr (replaceCI_changes old new title hone hold hnew hne h)
    · exact Or.inl (replaceCI_changes old new content hone hold hnew hne h)
  have hsimple : try_simple_replacement title content instruction =
      some ⟨replaceCI old new title, replaceCI old new content,
        wordCountL (replaceCI old new content),
        some (decide (replaceCI old new title ≠ title)),
        some (decide (replaceCI old new content ≠ content)),
        some instruction, none, some (strL "direct_replacement"), true, none⟩ := by
    unfold try_simple_replacement
    rw [hps, trySimpleGo_skip title content instruction (stripL (lowerL instruction))
      ps1 (p :: ps2) hskip]
    simp only [trySimpleGo, hmatch]
    rw [if_pos hchange]
  unfold tweak_blog
  rw [hsimple]

/-- C4 witness: the spec's deterministic-path example (first pattern,
case-preserving `colour` → `color` across title and body, no provider
call). -/
theorem tweak_direct_replacement_witness :
    tweak_blog (strL "SCHOOL TIES") (strL "Our colour range, in every Colour.")
        (strL "replace colour with color") (Except.error []) =
      (⟨replaceCI (strL "colour") (strL "color") (strL "SCHOOL TIES"),
        replaceCI (strL "colour") (strL "color") (strL "Our colour range, in every Colour."),
        wordCountL (replaceCI (strL "colour") (strL "color")
          (strL "Our colour range, in every Colour.")),
        some (decide (replaceCI (strL "colour") (strL "color") (strL "SCHOOL TIES") ≠
          strL "SCHOOL TIES")),
        some (decide (replaceCI (strL "colour") (strL "color")
            (strL "Our colour range, in every Colour.") ≠
          strL "Our colour range, in every Colour.")),
        some (strL "replace colour with color"), none,
        some (strL "direct_replacement"), true, none⟩, 0) :=
  tweak_direct_replacement (strL "SCHOOL TIES") (strL "Our colour range, in every Colour.")
    (strL "replace colour with color") (Except.error [])
    [] simplePatterns.tail (simplePatterns.headD ⟨RE.eps, false, false, false⟩)
    (strL "colour") (strL "color")
    rfl (fun q hq => absurd hq (List.not_mem_nil q))
    (by decide) (by decide) (by decide) (by decide) (by decide)
    (Or.inr (by decide))

/-- The claim of C2 as stated, over the result actually returned: whenever
the returned body differs from the original by more than the instruction's
allowed change ratio, the edit must have been rejected (original title and
body back, `success = false`, populated `error`). -/
def tweakGuardClaim : Prop :=
  ∀ (title content instruction : List Char) (oracle : Except (List Char) (List Char)),
    maxAllowedChange instruction <
        calculate_change_ratio content (tweak_blog title content instruction oracle).1.content →
      (tweak_blog title content instruction oracle).1.success = false ∧
      (tweak_blog title content instruction oracle).1.title = title ∧
      (tweak_blog title content instruction oracle).1.content = content ∧
      ∃ msg, (tweak_blog title content instruction oracle).1.error = some msg ∧ msg ≠ []

/-- Closed form of `calculate_change_ratio` once the match count and the
lengths are evaluated. -/
lemma calculate_change_ratio_eval (a b : List Char) (m la lb : Nat)
    (hm : matchSum a b = m) (ha : a.length = la) (hb : b.length = lb)
    (h0 : ¬ (la + lb = 0)) :
    calculate_change_ratio a b = 1 - (2 * m : ℚ) / ((la + lb : Nat) : ℚ) := by
  unfold calculate_change_ratio smRatio
  rw [hm, ha, hb, if_neg h0]

lemma maxAllowedChange_word (instruction : List Char)
    (h : isParagraphRewrite instruction = false) :
    maxAllowedChange instruction = 1 / 20 := by
  simp [maxAllowedChange, h]

/-- C2 counterexample: the change-ratio guard is only applied on the
LLM-mediated path.  The deterministic path (`replace colour with x` on a
body that is mostly the word `colour`) rewrites 84% of the body — far
beyond the 5% word-edit allowance — yet returns `success = true` with the
replaced body. -/
theorem tweak_guard_claim_false : ¬ tweakGuardClaim := by
  intro h
  have hc := h (strL "T") (strL "colour colour colour") (strL "replace colour with x")
    (Except.error [])
  have hres : (tweak_blog (strL "T") (strL "colour colour colour")
      (strL "replace colour with x") (Except.error [])).1.content = strL "x x x" := by decide
  have hsucc : (tweak_blog (strL "T") (strL "colour colour colour")
      (strL "replace colour with x") (Except.error [])).1.success = true := by decide
  have hmax : maxAllowedChange (strL "replace colour with x") = 1 / 20 :=
    maxAllowedChange_word _ (by decide)
  have hratio : calculate_change_ratio (strL "colour colour colour") (strL "x x x") =
      1 - (2 * 2 : ℚ) / ((20 + 5 : Nat) : ℚ) :=
    calculate_change_ratio_eval _ _ 2 20 5 (by decide) (by decide) (by decide) (by decide)
  have harg : maxAllowedChange (strL "replace colour with x") <
      calculate_change_ratio (strL "colour colour colour")
        (tweak_blog (strL "T") (strL "colour colour colour")
          (strL "replace colour with x") (Except.error [])).1.content := by
    rw [hres, hmax, hratio]
    norm_num
  obtain ⟨hfalse, -, -, -⟩ := hc harg
  rw [hsucc] at hfalse
  exact Bool.noConfusion hfalse

/-- C2 amended: the change-ratio guard governs the LLM-mediated path: when
no deterministic pattern applies and the parsed LLM response changes more
of the body than the instruction's allowance (5%, or 15% for
paragraph/rewrite/section/redo instructions), the edit is rejected — the
original title and body are returned with `success = false` and a
populated error message.  Deterministic-path results bypass the guard (see
the counterexample). -/
theorem tweak_llm_guard_rejects (title content instruction resp : List Char)
    (hsimple : try_simple_replacement title content instruction = none)
    (hratio : maxAllowedChange instruction <
      calculate_change_ratio content (parseTweakResp resp).2) :
    tweak_blog title content instruction (Except.ok resp) =
      (⟨title, content, wordCountL content, none, none, none, none, none,
        false, some rejectMsg⟩, 1) ∧
    rejectMsg ≠ [] := by
  refine ⟨?_, by decide⟩
  unfold tweak_blog
  rw [hsimple]
  simp only []
  rw [if_pos hratio]

/-- C2 witness: an instruction with no replacement pattern and no rewrite
keyword (allowance 5%), answered by a response that replaces the whole
body, is rejected with the original content intact. -/
theorem tweak_llm_guard_rejects_witness :
    try_simple_replacement (strL "T") (strL "alpha beta gamma delta")
        (strL "make it snappier") = none ∧
    maxAllowedChange (strL "make it snappier") <
      calculate_change_ratio (strL "alpha beta gamma delta")
        (parseTweakResp (strL "T\nzzz qq ww")).2 ∧
    tweak_blog (strL "T") (strL "alpha beta gamma delta") (strL "make it snappier")
        (Except.ok (strL "T\nzzz qq ww")) =
      (⟨strL "T", strL "alpha beta gamma delta",
        wordCountL (strL "alpha beta gamma delta"), none, none, none, none, none,
        false, some rejectMsg⟩, 1) := by
  have hp : (parseTweakResp (strL "T\nzzz qq ww")).2 = strL "zzz qq ww" := by decide
  have hratio : maxAllowedChange (strL "make it snappier") <
      calculate_change_ratio (strL "alpha beta gamma delta")
        (parseTweakResp (strL "T\nzzz qq ww")).2 := by
    rw [hp, maxAllowedChange_word _ (by decide),
      calculate_change_ratio_eval _ _ 2 22 9 (by decide) (by decide) (by decide) (by decide)]
    norm_num
  refine ⟨by decide, hratio, ?_⟩
  exact (tweak_llm_guard_rejects (strL "T") (strL "alpha beta gamma delta")
    (strL "make it snappier") (strL "T\nzzz qq ww") (by decide) hratio).1

end Vinuchi

